import Mathlib

set_option maxHeartbeats 1000000

/-!
Verification of the ScreenQnA question-extraction pipeline.

The pipeline (screen_qna.py, screen_qna_gui.py, screen_qna_snap.py) is embedded
shallowly: strings are lists of characters, the OCR engine and the remote
answer service are oracle parameters, and the regular-expression matching of
the source is rendered as explicit character scans with the same semantics.
-/

/-! ## Character classes -/

/-- The regex class [A-Z] of screen_qna.py: an uppercase ASCII Latin letter. -/
def isUpperLatin (c : Char) : Bool := 'A' ≤ c && c ≤ 'Z'

/-- Whitespace as removed by Python str.strip and matched by the regex
whitespace class: the Unicode whitespace characters of Python, namely the
ASCII whitespace run, the four separator control characters, next line,
no-break space, ogham space mark, the general punctuation spaces, the line
and paragraph separators, narrow no-break space, medium mathematical space
and ideographic space. -/
def isPySpace (c : Char) : Bool :=
  (9 ≤ c.toNat && c.toNat ≤ 13) || c.toNat == 32 ||
  (28 ≤ c.toNat && c.toNat ≤ 31) || c.toNat == 0x85 || c.toNat == 0xA0 ||
  c.toNat == 0x1680 || (0x2000 ≤ c.toNat && c.toNat ≤ 0x200A) ||
  c.toNat == 0x2028 || c.toNat == 0x2029 || c.toNat == 0x202F ||
  c.toNat == 0x205F || c.toNat == 0x3000

/-- Python str.strip: remove leading and trailing whitespace. -/
def pyStrip (s : List Char) : List Char :=
  ((s.dropWhile isPySpace).reverse.dropWhile isPySpace).reverse

/-! ## Generic list helper lemmas -/

theorem dropWhile_eq_nil_of_all {α : Type} {p : α → Bool} {l : List α}
    (h : ∀ c ∈ l, p c = true) : l.dropWhile p = [] := by
  induction l with
  | nil => rfl
  | cons a t ih =>
    rw [List.dropWhile_cons_of_pos (h a (List.mem_cons_self a t))]
    exact ih fun c hc => h c (List.mem_cons_of_mem a hc)

theorem takeWhile_append_of_all {α : Type} {p : α → Bool} {l₁ l₂ : List α}
    (h : ∀ c ∈ l₁, p c = true) :
    (l₁ ++ l₂).takeWhile p = l₁ ++ l₂.takeWhile p := by
  induction l₁ with
  | nil => rfl
  | cons a t ih =>
    rw [List.cons_append, List.takeWhile_cons_of_pos (h a (List.mem_cons_self a t)),
      ih fun c hc => h c (List.mem_cons_of_mem a hc), List.cons_append]

theorem dropWhile_append_of_all {α : Type} {p : α → Bool} {l₁ l₂ : List α}
    (h : ∀ c ∈ l₁, p c = true) :
    (l₁ ++ l₂).dropWhile p = l₂.dropWhile p := by
  induction l₁ with
  | nil => rfl
  | cons a t ih =>
    rw [List.cons_append, List.dropWhile_cons_of_pos (h a (List.mem_cons_self a t))]
    exact ih fun c hc => h c (List.mem_cons_of_mem a hc)

theorem mem_of_mem_takeWhile {α : Type} {p : α → Bool} {l : List α} {c : α}
    (h : c ∈ l.takeWhile p) : p c = true := by
  induction l with
  | nil => cases h
  | cons a t ih =>
    by_cases hpa : p a = true
    · rw [List.takeWhile_cons_of_pos hpa] at h
      rcases List.mem_cons.mp h with rfl | hm
      · exact hpa
      · exact ih hm
    · rw [List.takeWhile_cons_of_neg (by simpa using hpa)] at h
      cases h

theorem length_dropWhile_le {α : Type} (p : α → Bool) (l : List α) :
    (l.dropWhile p).length ≤ l.length := by
  induction l with
  | nil => simp
  | cons a t ih =>
    rw [List.dropWhile_cons]
    split
    · exact Nat.le_succ_of_le ih
    · simp

/-! ## Strip lemmas -/

theorem pyStrip_eq_self {a b : Char} {l : List Char}
    (ha : isPySpace a = false) (hb : isPySpace b = false) :
    pyStrip (a :: (l ++ [b])) = a :: (l ++ [b]) := by
  unfold pyStrip
  rw [List.dropWhile_cons_of_neg (by simp [ha])]
  rw [show a :: (l ++ [b]) = (a :: l) ++ [b] from by simp]
  rw [List.reverse_append, List.reverse_singleton, List.singleton_append,
    List.dropWhile_cons_of_neg (by simp [hb])]
  simp

/-! ## Order-preserving deduplication (dict.fromkeys) -/

/-- Helper for dedupKeepFirst: drop elements already seen, first occurrences kept. -/
def dedupAux {α : Type} [DecidableEq α] (seen : List α) : List α → List α
  | [] => []
  | x :: xs => if x ∈ seen then dedupAux seen xs else x :: dedupAux (x :: seen) xs

/-- Embeds list(dict.fromkeys(...)) of screen_qna.py: deduplicate while
preserving the order of first occurrences. -/
def dedupKeepFirst {α : Type} [DecidableEq α] (l : List α) : List α :=
  dedupAux [] l

theorem mem_of_mem_dedupAux {α : Type} [DecidableEq α] {seen l : List α} {x : α}
    (h : x ∈ dedupAux seen l) : x ∈ l := by
  induction l generalizing seen with
  | nil => cases h
  | cons a t ih =>
    rw [dedupAux] at h
    split at h
    · exact List.mem_cons_of_mem a (ih h)
    · rcases List.mem_cons.mp h with rfl | hm
      · exact List.mem_cons_self x t
      · exact List.mem_cons_of_mem a (ih hm)

theorem dedupAux_not_mem_seen {α : Type} [DecidableEq α] {seen l : List α} {x : α}
    (h : x ∈ dedupAux seen l) : x ∉ seen := by
  induction l generalizing seen with
  | nil => cases h
  | cons a t ih =>
    rw [dedupAux] at h
    split at h
    · exact ih h
    · rcases List.mem_cons.mp h with rfl | hm
      · assumption
      · intro hx
        exact ih hm (List.mem_cons_of_mem a hx)

theorem dedupAux_nodup {α : Type} [DecidableEq α] (seen l : List α) :
    (dedupAux seen l).Nodup := by
  induction l generalizing seen with
  | nil => exact List.nodup_nil
  | cons a t ih =>
    rw [dedupAux]
    split
    · exact ih seen
    · exact List.nodup_cons.mpr
        ⟨fun hm => dedupAux_not_mem_seen hm (List.mem_cons_self a seen), ih (a :: seen)⟩

theorem dedupKeepFirst_nodup {α : Type} [DecidableEq α] (l : List α) :
    (dedupKeepFirst l).Nodup := dedupAux_nodup [] l

theorem mem_of_mem_dedupKeepFirst {α : Type} [DecidableEq α] {l : List α} {x : α}
    (h : x ∈ dedupKeepFirst l) : x ∈ l := mem_of_mem_dedupAux h

/-! ## The Latin multi-match extractor (screen_qna.py, extract_questions)

The source matches the pattern consisting of one uppercase Latin letter,
then a lazy run of at least three characters other than the Latin question
mark, then a Latin question mark, with re.findall (the MULTILINE and DOTALL
flags are irrelevant: the pattern has no anchors and no dot).  re.findall
scans left to right; at each position a match succeeds exactly when the
position holds an uppercase letter and the first question mark after it is
at distance at least four; scanning resumes after each match. -/

/-- One match attempt of the pattern at a position whose first character is c
and remaining text is cs.  Returns the matched string and the rest of the
text after the match. -/
def findMatch (c : Char) (cs : List Char) : Option (List Char × List Char) :=
  if isUpperLatin c then
    if (cs.dropWhile (fun x => x != '?')).isEmpty then none
    else if 3 ≤ (cs.takeWhile (fun x => x != '?')).length then
      some (c :: cs.takeWhile (fun x => x != '?') ++ ['?'],
        (cs.dropWhile (fun x => x != '?')).tail)
    else none
  else none

theorem findMatch_some_length {c : Char} {cs m tl : List Char}
    (h : findMatch c cs = some (m, tl)) : tl.length ≤ cs.length := by
  unfold findMatch at h
  split at h
  · split at h
    · cases h
    · split at h
      · have htl : tl = (cs.dropWhile (fun x => x != '?')).tail := by
          have := congrArg Prod.snd (Option.some.inj h)
          simpa using this.symm
        rw [htl]
        calc ((cs.dropWhile (fun x => x != '?')).tail).length
            ≤ (cs.dropWhile (fun x => x != '?')).length := by
              rw [List.length_tail]; omega
          _ ≤ cs.length := length_dropWhile_le _ _
      · cases h
  · cases h

/-- Fuel-based scanner for re.findall; the fuel is an upper bound on the
number of scan steps, always instantiated so that it never runs out. -/
def findallGo : Nat → List Char → List (List Char)
  | _, [] => []
  | 0, _ :: _ => []
  | fuel + 1, c :: cs =>
    match findMatch c cs with
    | some (m, tl) => m :: findallGo fuel tl
    | none => findallGo fuel cs

theorem findallGo_nil (f : Nat) : findallGo f [] = [] := by
  cases f <;> rfl

theorem findallGo_irrel :
    ∀ (f₁ : Nat), ∀ (f₂ : Nat) (txt : List Char), txt.length ≤ f₁ → txt.length ≤ f₂ →
      findallGo f₁ txt = findallGo f₂ txt := by
  intro f₁
  induction f₁ with
  | zero =>
    intro f₂ txt h1 h2
    have : txt = [] := List.length_eq_zero.mp (Nat.le_zero.mp h1)
    subst this
    rw [findallGo_nil, findallGo_nil]
  | succ k ih =>
    intro f₂ txt h1 h2
    match txt, f₂ with
    | [], _ => rw [findallGo_nil, findallGo_nil]
    | c :: cs, 0 => simp at h2
    | c :: cs, j + 1 =>
      rw [findallGo, findallGo]
      cases hfm : findMatch c cs with
      | some pair =>
        obtain ⟨m, tl⟩ := pair
        simp only
        have htl := findMatch_some_length hfm
        simp only [List.length_cons] at h1 h2
        exact congrArg _ (ih j tl (by omega) (by omega))
      | none =>
        simp only
        simp only [List.length_cons] at h1 h2
        exact ih j cs (by omega) (by omega)

/-- Embeds re.findall of the pattern over the text: the list of raw matched
substrings, in order of appearance. -/
def findall (txt : List Char) : List (List Char) :=
  findallGo txt.length txt

theorem findall_nil : findall [] = [] := rfl

theorem findall_cons (c : Char) (cs : List Char) :
    findall (c :: cs) =
      match findMatch c cs with
      | some (m, tl) => m :: findall tl
      | none => findall cs := by
  show findallGo (c :: cs).length (c :: cs) = _
  rw [List.length_cons, findallGo]
  cases hfm : findMatch c cs with
  | some pair =>
    obtain ⟨m, tl⟩ := pair
    simp only
    exact congrArg _
      (findallGo_irrel cs.length tl.length tl (findMatch_some_length hfm) (Nat.le_refl _))
  | none =>
    simp only
    exact findallGo_irrel cs.length cs.length cs (Nat.le_refl _) (Nat.le_refl _)

/-- Embeds extract_questions of screen_qna.py: all regex matches, stripped,
deduplicated keeping first occurrences. -/
def extract_questions (text : List Char) : List (List Char) :=
  dedupKeepFirst ((findall text).map pyStrip)

/-! ## Well-formed Latin question sentences -/

/-- A well-formed Latin question sentence: an uppercase Latin letter, then at
least three further characters none of which is a question mark, then the
Latin question mark. -/
def wellFormedQ (q : List Char) : Bool :=
  match q with
  | [] => false
  | c :: rest =>
      isUpperLatin c && decide (4 ≤ rest.length) && (rest.getLast? == some '?')
        && !(rest.dropLast.contains '?')

theorem wellFormedQ_dest {q : List Char} (h : wellFormedQ q = true) :
    ∃ c mid, q = c :: (mid ++ ['?']) ∧ isUpperLatin c = true ∧ 3 ≤ mid.length ∧
      ∀ x ∈ mid, x ≠ '?' := by
  match q with
  | [] => cases h
  | c :: rest =>
    simp only [wellFormedQ, Bool.and_eq_true, beq_iff_eq, Bool.not_eq_true',
      decide_eq_true_eq] at h
    obtain ⟨⟨⟨hc, hlen⟩, hlast⟩, hcont⟩ := h
    have hne : rest ≠ [] := by intro hr; rw [hr] at hlen; simp at hlen
    refine ⟨c, rest.dropLast, ?_, hc, ?_, ?_⟩
    · rw [List.getLast?_eq_getLast rest hne] at hlast
      have hlq : rest.getLast hne = '?' := Option.some.inj hlast
      have hbuild : rest.dropLast ++ [rest.getLast hne] = rest :=
        List.dropLast_append_getLast hne
      rw [hlq] at hbuild
      exact congrArg (List.cons c) hbuild.symm
    · have : rest.dropLast.length = rest.length - 1 := List.length_dropLast rest
      omega
    · intro x hx hxq
      rw [hxq] at hx
      have : rest.dropLast.contains '?' = true := List.elem_iff.mpr hx
      rw [hcont] at this
      cases this

theorem wellFormedQ_intro {c : Char} {mid : List Char}
    (hc : isUpperLatin c = true) (hlen : 3 ≤ mid.length)
    (hmid : ∀ x ∈ mid, x ≠ '?') :
    wellFormedQ (c :: (mid ++ ['?'])) = true := by
  simp only [wellFormedQ, Bool.and_eq_true, beq_iff_eq, Bool.not_eq_true',
    decide_eq_true_eq]
  refine ⟨⟨⟨hc, ?_⟩, ?_⟩, ?_⟩
  · simp; omega
  · simp
  · rw [List.dropLast_concat]
    by_cases hm : '?' ∈ mid
    · exact absurd rfl (hmid '?' hm)
    · exact Bool.not_eq_true _ ▸ (by simpa using hm)

/-- No uppercase Latin letter occurs in the string. -/
def noUpperLatin (s : List Char) : Bool := s.all (fun c => !isUpperLatin c)

/-- A text assembled from alternating separator/question-sentence pairs and a
trailing separator. -/
def assemble : List (List Char × List Char) → List Char → List Char
  | [], t => t
  | (s, q) :: ps, t => s ++ (q ++ assemble ps t)

theorem findall_cons_not_upper {c : Char} {cs : List Char}
    (hc : isUpperLatin c = false) : findall (c :: cs) = findall cs := by
  rw [findall_cons]
  have : findMatch c cs = none := by unfold findMatch; rw [hc]; simp
  rw [this]

theorem findall_append_not_upper {s rest : List Char}
    (hs : noUpperLatin s = true) : findall (s ++ rest) = findall rest := by
  induction s with
  | nil => rfl
  | cons a t ih =>
    simp only [noUpperLatin, List.all_cons, Bool.and_eq_true, Bool.not_eq_true'] at hs
    rw [List.cons_append, findall_cons_not_upper hs.1]
    exact ih (by simpa [noUpperLatin] using hs.2)

theorem findall_nil_of_not_upper {s : List Char} (hs : noUpperLatin s = true) :
    findall s = [] := by
  have := @findall_append_not_upper s [] hs
  rw [List.append_nil] at this
  rw [this, findall_nil]

theorem findall_wellFormed_cons {q rest : List Char} (hq : wellFormedQ q = true) :
    findall (q ++ rest) = q :: findall rest := by
  obtain ⟨c, mid, rfl, hc, hlen, hmid⟩ := wellFormedQ_dest hq
  have hall : ∀ x ∈ mid, (x != '?') = true := fun x hx => bne_iff_ne.mpr (hmid x hx)
  have htake : (mid ++ ('?' :: rest)).takeWhile (fun x => x != '?') = mid := by
    rw [takeWhile_append_of_all hall, List.takeWhile_cons_of_neg (by simp)]
    simp
  have hdrop : (mid ++ ('?' :: rest)).dropWhile (fun x => x != '?') = '?' :: rest := by
    rw [dropWhile_append_of_all hall, List.dropWhile_cons_of_neg (by simp)]
  have hmatch : findMatch c (mid ++ ('?' :: rest)) = some (c :: (mid ++ ['?']), rest) := by
    unfold findMatch
    rw [htake, hdrop]
    simp [hc, hlen]
  have harr : (c :: (mid ++ ['?'])) ++ rest = c :: (mid ++ ('?' :: rest)) := by simp
  rw [harr, findall_cons, hmatch]

theorem findall_assemble (ps : List (List Char × List Char)) (t : List Char)
    (hps : ∀ p ∈ ps, noUpperLatin p.1 = true ∧ wellFormedQ p.2 = true)
    (ht : noUpperLatin t = true) :
    findall (assemble ps t) = ps.map Prod.snd := by
  induction ps with
  | nil => exact findall_nil_of_not_upper ht
  | cons p ps ih =>
    obtain ⟨s, q⟩ := p
    have hp := hps (s, q) (List.mem_cons_self _ _)
    rw [assemble, findall_append_not_upper hp.1, findall_wellFormed_cons hp.2,
      List.map_cons]
    exact congrArg _ (ih fun p hp => hps p (List.mem_cons_of_mem _ hp))

theorem upper_toNat_bounds {c : Char} (h : isUpperLatin c = true) :
    65 ≤ c.toNat ∧ c.toNat ≤ 90 := by
  simp only [isUpperLatin, Bool.and_eq_true, decide_eq_true_eq] at h
  obtain ⟨h1, h2⟩ := h
  rw [Char.le_def, UInt32.le_def, BitVec.le_def] at h1 h2
  exact ⟨h1, h2⟩

theorem isPySpace_false_of_upper {c : Char} (h : isUpperLatin c = true) :
    isPySpace c = false := by
  obtain ⟨h1, h2⟩ := upper_toNat_bounds h
  rw [Bool.eq_false_iff]
  intro hs
  simp only [isPySpace, Bool.or_eq_true, Bool.and_eq_true, decide_eq_true_eq,
    beq_iff_eq] at hs
  omega

theorem pyStrip_wellFormedQ {q : List Char} (hq : wellFormedQ q = true) :
    pyStrip q = q := by
  obtain ⟨c, mid, rfl, hc, _, _⟩ := wellFormedQ_dest hq
  exact pyStrip_eq_self (isPySpace_false_of_upper hc) (by decide)

theorem findMatch_some_wellFormed {c : Char} {cs m tl : List Char}
    (h : findMatch c cs = some (m, tl)) : wellFormedQ m = true := by
  unfold findMatch at h
  split at h
  · split at h
    · cases h
    · split at h
      · rename_i hup hne hlen
        have hm := congrArg Prod.fst (Option.some.inj h)
        simp only at hm
        rw [← hm]
        rw [show c :: cs.takeWhile (fun x => x != '?') ++ ['?']
            = c :: (cs.takeWhile (fun x => x != '?') ++ ['?']) from by simp]
        refine wellFormedQ_intro hup hlen ?_
        intro x hx
        have hb := @mem_of_mem_takeWhile Char (fun y => y != '?') cs x hx
        exact bne_iff_ne.mp hb
      · cases h
  · cases h

theorem findall_mem_wellFormed_aux :
    ∀ (n : Nat) (txt : List Char), txt.length ≤ n →
      ∀ m ∈ findall txt, wellFormedQ m = true := by
  intro n
  induction n with
  | zero =>
    intro txt hlen m hm
    have : txt = [] := List.length_eq_zero.mp (Nat.le_zero.mp hlen)
    subst this
    rw [findall_nil] at hm
    cases hm
  | succ k ih =>
    intro txt hlen m hm
    match txt with
    | [] => rw [findall_nil] at hm; cases hm
    | c :: cs =>
      rw [findall_cons] at hm
      cases hfm : findMatch c cs with
      | some pair =>
        obtain ⟨m0, tl⟩ := pair
        rw [hfm] at hm
        simp only at hm
        rcases List.mem_cons.mp hm with rfl | hmem
        · exact findMatch_some_wellFormed hfm
        · have htl : tl.length ≤ k := by
            have := findMatch_some_length hfm
            simp only [List.length_cons] at hlen
            omega
          exact ih tl htl m hmem
      | none =>
        rw [hfm] at hm
        simp only at hm
        have hcs : cs.length ≤ k := by
          simp only [List.length_cons] at hlen
          omega
        exact ih cs hcs m hm

theorem findall_mem_wellFormed {txt m : List Char} (h : m ∈ findall txt) :
    wellFormedQ m = true :=
  findall_mem_wellFormed_aux txt.length txt (Nat.le_refl _) m h

theorem findall_eq_nil_of_no_qmark {txt : List Char} (h : ('?' : Char) ∉ txt) :
    findall txt = [] := by
  induction txt with
  | nil => rw [findall_nil]
  | cons c cs ih =>
    have hcs : ('?' : Char) ∉ cs := fun hm => h (List.mem_cons_of_mem c hm)
    have hnone : findMatch c cs = none := by
      unfold findMatch
      have hdw : cs.dropWhile (fun x => x != '?') = [] :=
        dropWhile_eq_nil_of_all (fun x hx => bne_iff_ne.mpr (fun hq => hcs (hq ▸ hx)))
      rw [hdw]
      simp
    rw [findall_cons, hnone]
    exact ih hcs

/-! ## The single-match extractor (screen_qna_gui.py, extract_question)

The source tries re.search of a run of at least two characters other than
the Arabic question mark followed by that mark, then the same pattern with
the Latin question mark, then falls back to the whole stripped text.
re.search scans positions left to right; at a position the greedy run
extends exactly to the first later occurrence of the terminator, so a match
succeeds there exactly when that first occurrence is at distance at least
two. -/

/-- Embeds one re.search scan: at each position, the candidate run is the
text up to the first occurrence of qm; the first position whose run has
length at least two yields the match. -/
def searchQm (qm : Char) : List Char → Option (List Char)
  | [] => none
  | c :: cs =>
    if ((c :: cs).dropWhile (fun x => x != qm)).isEmpty then none
    else if 2 ≤ ((c :: cs).takeWhile (fun x => x != qm)).length then
      some ((c :: cs).takeWhile (fun x => x != qm) ++ [qm])
    else searchQm qm cs

/-- Follows the spec's words for the single-match policy: the first run of
at least two characters not containing qm that is immediately followed by
qm, returned together with its terminator; runs are delimited by the
occurrences of qm. -/
def specFirstRunGo (qm : Char) : Nat → List Char → Option (List Char)
  | 0, _ => none
  | fuel + 1, txt =>
    if (txt.dropWhile (fun x => x != qm)).isEmpty then none
    else if 2 ≤ (txt.takeWhile (fun x => x != qm)).length then
      some (txt.takeWhile (fun x => x != qm) ++ [qm])
    else specFirstRunGo qm fuel (txt.dropWhile (fun x => x != qm)).tail

theorem specFirstRunGo_irrel (qm : Char) :
    ∀ (f₁ : Nat), ∀ (f₂ : Nat) (txt : List Char),
      txt.length < f₁ → txt.length < f₂ →
      specFirstRunGo qm f₁ txt = specFirstRunGo qm f₂ txt := by
  intro f₁
  induction f₁ with
  | zero => intro f₂ txt h1 h2; omega
  | succ k ih =>
    intro f₂ txt h1 h2
    match f₂ with
    | 0 => omega
    | j + 1 =>
      rw [specFirstRunGo, specFirstRunGo]
      by_cases hemp : (txt.dropWhile (fun x => x != qm)).isEmpty = true
      · rw [if_pos hemp, if_pos hemp]
      · rw [if_neg hemp, if_neg hemp]
        by_cases hlen : 2 ≤ (txt.takeWhile (fun x => x != qm)).length
        · rw [if_pos hlen, if_pos hlen]
        · rw [if_neg hlen, if_neg hlen]
          have hd := length_dropWhile_le (fun x => x != qm) txt
          have hdn : (txt.dropWhile (fun x => x != qm)).length ≠ 0 := by
            intro h0
            rw [List.length_eq_zero] at h0
            rw [h0] at hemp
            simp at hemp
          have ht : ((txt.dropWhile (fun x => x != qm)).tail).length
              = (txt.dropWhile (fun x => x != qm)).length - 1 := List.length_tail _
          exact ih j _ (by omega) (by omega)

/-- Follows the spec's words for the single-match policy: the first run of
at least two characters not containing qm that is immediately followed by
qm, returned together with its terminator; runs are delimited by the
occurrences of qm. -/
def specFirstRun (qm : Char) (txt : List Char) : Option (List Char) :=
  specFirstRunGo qm (txt.length + 1) txt

theorem specFirstRun_step (qm : Char) (txt : List Char) :
    specFirstRun qm txt =
      if (txt.dropWhile (fun x => x != qm)).isEmpty then none
      else if 2 ≤ (txt.takeWhile (fun x => x != qm)).length then
        some (txt.takeWhile (fun x => x != qm) ++ [qm])
      else specFirstRun qm (txt.dropWhile (fun x => x != qm)).tail := by
  show specFirstRunGo qm (txt.length + 1) txt = _
  rw [specFirstRunGo]
  by_cases hemp : (txt.dropWhile (fun x => x != qm)).isEmpty = true
  · rw [if_pos hemp, if_pos hemp]
  · rw [if_neg hemp, if_neg hemp]
    by_cases hlen : 2 ≤ (txt.takeWhile (fun x => x != qm)).length
    · rw [if_pos hlen, if_pos hlen]
    · rw [if_neg hlen, if_neg hlen]
      have hd := length_dropWhile_le (fun x => x != qm) txt
      have hdn : (txt.dropWhile (fun x => x != qm)).length ≠ 0 := by
        intro h0
        rw [List.length_eq_zero] at h0
        rw [h0] at hemp
        simp at hemp
      have ht : ((txt.dropWhile (fun x => x != qm)).tail).length
          = (txt.dropWhile (fun x => x != qm)).length - 1 := List.length_tail _
      exact specFirstRunGo_irrel qm _ _ _ (by omega) (by omega)

/-- Embeds extract_question of screen_qna_gui.py: the first Arabic-style
match, else the first Latin-style match, else the whole text, stripped. -/
def extract_question (txt : List Char) : List Char :=
  match searchQm '؟' txt with
  | some m => pyStrip m
  | none =>
    match searchQm '?' txt with
    | some m => pyStrip m
    | none => pyStrip txt

theorem searchQm_eq_specFirstRun_aux (qm : Char) :
    ∀ (n : Nat), ∀ (txt : List Char), txt.length ≤ n →
      searchQm qm txt = specFirstRun qm txt := by
  intro n
  induction n with
  | zero =>
    intro txt hlen
    have h0 : txt = [] := List.length_eq_zero.mp (Nat.le_zero.mp hlen)
    subst h0
    rw [searchQm, specFirstRun_step]
    simp
  | succ k ih =>
    intro txt hlen
    match txt with
    | [] =>
      rw [searchQm, specFirstRun_step]
      simp
    | c :: cs =>
      rw [searchQm, specFirstRun_step]
      by_cases hc : (c != qm) = true
      · have htc : (c :: cs).takeWhile (fun x => x != qm)
            = c :: cs.takeWhile (fun x => x != qm) :=
          List.takeWhile_cons_of_pos (by simpa using hc)
        have hdc : (c :: cs).dropWhile (fun x => x != qm)
            = cs.dropWhile (fun x => x != qm) :=
          List.dropWhile_cons_of_pos (by simpa using hc)
        rw [htc, hdc]
        by_cases hemp : (cs.dropWhile (fun x => x != qm)).isEmpty = true
        · rw [if_pos hemp, if_pos hemp]
        · rw [if_neg hemp, if_neg hemp]
          by_cases hl2 : 2 ≤ (c :: cs.takeWhile (fun x => x != qm)).length
          · rw [if_pos hl2, if_pos hl2]
          · rw [if_neg hl2, if_neg hl2]
            have htw : cs.takeWhile (fun x => x != qm) = [] := by
              cases htww : cs.takeWhile (fun x => x != qm) with
              | nil => rfl
              | cons a t =>
                rw [htww, List.length_cons, List.length_cons] at hl2
                omega
            cases cs with
            | nil => simp at hemp
            | cons d cs' =>
              have hd : (d != qm) = false := by
                by_contra hdd
                have hdd' : (d != qm) = true := by simpa using hdd
                have hexp : (d :: cs').takeWhile (fun x => x != qm)
                    = d :: cs'.takeWhile (fun x => x != qm) :=
                  List.takeWhile_cons_of_pos (by simpa using hdd')
                rw [hexp] at htw
                cases htw
              have hdrop : (d :: cs').dropWhile (fun x => x != qm) = d :: cs' :=
                List.dropWhile_cons_of_neg (by simp [hd])
              rw [hdrop, List.tail_cons]
              have hcs : searchQm qm (d :: cs') = specFirstRun qm (d :: cs') := by
                apply ih
                simp only [List.length_cons] at hlen ⊢
                omega
              have htd : (d :: cs').takeWhile (fun x => x != qm) = [] :=
                List.takeWhile_cons_of_neg (by simp [hd])
              rw [hcs, specFirstRun_step]
              rw [hdrop, htd, List.tail_cons]
              simp
      · have hc' : (c != qm) = false := by simpa using hc
        have htc : (c :: cs).takeWhile (fun x => x != qm) = [] :=
          List.takeWhile_cons_of_neg (by simp [hc'])
        have hdc : (c :: cs).dropWhile (fun x => x != qm) = c :: cs :=
          List.dropWhile_cons_of_neg (by simp [hc'])
        rw [htc, hdc]
        simp only [List.isEmpty_cons, Bool.false_eq_true, if_false, List.length_nil,
          List.tail_cons]
        rw [if_neg (by omega), if_neg (by omega)]
        apply ih
        simp only [List.length_cons] at hlen
        omega

theorem searchQm_eq_specFirstRun (qm : Char) (txt : List Char) :
    searchQm qm txt = specFirstRun qm txt :=
  searchQm_eq_specFirstRun_aux qm txt.length txt (Nat.le_refl _)

/-! ## The answer formatter (screen_qna_gui.py, run_ocr_and_answer) -/

/-- A character of the Arabic Unicode block, as tested by run_ocr_and_answer
to pick the language of the answer tag. -/
def isArabicBlock (c : Char) : Bool := '؀' ≤ c && c ≤ 'ۿ'

/-- The ranges of the Unicode decimal digits (category Nd): every decimal
digit system is a run of ten consecutive code points; the mathematical
alphanumeric digits form one longer run of fifty. -/
def ndDigitRanges : List (Nat × Nat) :=
  [(0x30, 0x39), (0x660, 0x669), (0x6F0, 0x6F9), (0x7C0, 0x7C9),
   (0x966, 0x96F), (0x9E6, 0x9EF), (0xA66, 0xA6F), (0xAE6, 0xAEF),
   (0xB66, 0xB6F), (0xBE6, 0xBEF), (0xC66, 0xC6F), (0xCE6, 0xCEF),
   (0xD66, 0xD6F), (0xDE6, 0xDEF), (0xE50, 0xE59), (0xED0, 0xED9),
   (0xF20, 0xF29), (0x1040, 0x1049), (0x1090, 0x1099), (0x17E0, 0x17E9),
   (0x1810, 0x1819), (0x1946, 0x194F), (0x19D0, 0x19D9), (0x1A80, 0x1A89),
   (0x1A90, 0x1A99), (0x1B50, 0x1B59), (0x1BB0, 0x1BB9), (0x1C40, 0x1C49),
   (0x1C50, 0x1C59), (0xA620, 0xA629), (0xA8D0, 0xA8D9), (0xA900, 0xA909),
   (0xA9D0, 0xA9D9), (0xA9F0, 0xA9F9), (0xAA50, 0xAA59), (0xABF0, 0xABF9),
   (0xFF10, 0xFF19), (0x104A0, 0x104A9), (0x10D30, 0x10D39),
   (0x11066, 0x1106F), (0x110F0, 0x110F9), (0x11136, 0x1113F),
   (0x111D0, 0x111D9), (0x112F0, 0x112F9), (0x11450, 0x11459),
   (0x114D0, 0x114D9), (0x11650, 0x11659), (0x116C0, 0x116C9),
   (0x11730, 0x11739), (0x118E0, 0x118E9), (0x11950, 0x11959),
   (0x11C50, 0x11C59), (0x11D50, 0x11D59), (0x11DA0, 0x11DA9),
   (0x11F50, 0x11F59), (0x16A60, 0x16A69), (0x16AC0, 0x16AC9),
   (0x16B50, 0x16B59), (0x1D7CE, 0x1D7FF), (0x1E140, 0x1E149),
   (0x1E2F0, 0x1E2F9), (0x1E4F0, 0x1E4F9), (0x1E950, 0x1E959),
   (0x1FBF0, 0x1FBF9)]

/-- The digit class of the numeric-token pattern of run_ocr_and_answer: the
Python class matches every Unicode decimal digit, and the Arabic-Indic
range the pattern lists again explicitly is contained in them. -/
def isReDigit (c : Char) : Bool :=
  ndDigitRanges.any (fun r => r.1 ≤ c.toNat && c.toNat ≤ r.2)

/-- The Arabic answer tag of run_ocr_and_answer. -/
def arAnswerTag : List Char := "الإجابة: ".data

/-- The Latin answer tag of run_ocr_and_answer. -/
def enAnswerTag : List Char := "Answer: ".data

/-- Embeds the anchored numeric-token match of run_ocr_and_answer: one or
more digits, an optional percent sign of either script, then at least one
whitespace character; returns the token and the rest of the first line after
the whitespace run (the dot of the pattern does not cross a newline). -/
def matchNum (answer : List Char) : Option (List Char × List Char) :=
  if (answer.takeWhile isReDigit).isEmpty then none
  else
    match answer.dropWhile isReDigit with
    | c :: tl =>
      if c == '%' || c == '٪' then
        if (tl.takeWhile isPySpace).isEmpty then none
        else some (answer.takeWhile isReDigit ++ [c],
          (tl.dropWhile isPySpace).takeWhile (fun x => x != '\n'))
      else
        if ((c :: tl).takeWhile isPySpace).isEmpty then none
        else some (answer.takeWhile isReDigit,
          ((c :: tl).dropWhile isPySpace).takeWhile (fun x => x != '\n'))
    | [] => none

/-- Embeds the answer-presentation code of run_ocr_and_answer: choose the
answer tag from the script of the source text, peel a leading numeric token
from the answer when one is present, and strip the assembled string. -/
def format_answer (text answer : List Char) : List Char :=
  let tag := if text.any isArabicBlock then arAnswerTag else enAnswerTag
  match matchNum answer with
  | some (numPart, ansMain) => pyStrip (numPart ++ (' ' :: (tag ++ ansMain)))
  | none => pyStrip (' ' :: (tag ++ answer))

/-- Embeds the success path of run_ocr_and_answer of screen_qna_gui.py with
the answer service as an oracle: the question sent to the service, the raw
answer, and the final formatted string. -/
def run_ocr_and_answer (svc : List Char → List Char) (text : List Char) :
    List Char × List Char × List Char :=
  let question_only := extract_question text
  let answer := svc question_only
  (question_only, answer, format_answer text answer)

/-! ## The answer client and the continuous loop (screen_qna.py) -/

/-- Outcome of one call to the remote answer service. -/
inductive QueryResult where
  | ok (answer : List Char)
  | err (msg : List Char)
deriving DecidableEq

/-- The configuration-error message of query_openai. -/
def cfgErrMsg : List Char := "OPENAI_API_KEY environment variable not set.".data

/-- Embeds query_openai of screen_qna.py: the optional credential comes from
the environment; the network oracle is consulted only after the credential
check passes (an empty credential is also rejected, since Python treats the
empty string as falsy). -/
def query_openai (apiKey : Option (List Char)) (net : List Char → QueryResult)
    (question : List Char) : QueryResult :=
  match apiKey with
  | none => QueryResult.err cfgErrMsg
  | some k => if k.isEmpty then QueryResult.err cfgErrMsg else net question

/-- Embeds the per-question body of the while loop of screen_qna.py main for
one cycle: walk the extracted questions; skip the ones already seen; query
the others; on success record the question as seen, on failure report it and
continue.  Returns the questions sent this cycle and the updated seen set. -/
def processQs (svc : List Char → QueryResult) (seen : List (List Char)) :
    List (List Char) → List (List Char) × List (List Char)
  | [] => ([], seen)
  | q :: qs =>
    if q ∈ seen then processQs svc seen qs
    else
      match svc q with
      | QueryResult.ok _ =>
        let r := processQs svc (seen ++ [q]) qs
        (q :: r.1, r.2)
      | QueryResult.err _ =>
        let r := processQs svc seen qs
        (q :: r.1, r.2)

/-- One cycle of the continuous loop of screen_qna.py main: extract the
questions from the OCR text of this cycle and process them against the seen
set. -/
def main_cycle (svc : List Char → QueryResult) (seen : List (List Char))
    (text : List Char) : List (List Char) × List (List Char) :=
  processQs svc seen (extract_questions text)

/-- Embeds the per-iteration dispatch of screen_qna_snap.py main: the OCR
text is stripped; when non-empty it is sent to the answer service verbatim,
with no extraction step. -/
def snap_main_question (raw : List Char) : Option (List Char) :=
  if (pyStrip raw).isEmpty then none else some (pyStrip raw)

/-- Whether a query outcome is a success. -/
def isOkB : QueryResult → Bool
  | QueryResult.ok _ => true
  | QueryResult.err _ => false

theorem processQs_cons_seen (svc : List Char → QueryResult) {q : List Char}
    {seen : List (List Char)} (h : q ∈ seen) (qs : List (List Char)) :
    processQs svc seen (q :: qs) = processQs svc seen qs := by
  rw [processQs, if_pos h]

theorem processQs_cons_ok (svc : List Char → QueryResult) {q a : List Char}
    {seen : List (List Char)} (h : q ∉ seen) (hq : svc q = QueryResult.ok a)
    (qs : List (List Char)) :
    processQs svc seen (q :: qs)
      = (q :: (processQs svc (seen ++ [q]) qs).1, (processQs svc (seen ++ [q]) qs).2) := by
  rw [processQs, if_neg h, hq]

theorem processQs_cons_err (svc : List Char → QueryResult) {q m : List Char}
    {seen : List (List Char)} (h : q ∉ seen) (hq : svc q = QueryResult.err m)
    (qs : List (List Char)) :
    processQs svc seen (q :: qs)
      = (q :: (processQs svc seen qs).1, (processQs svc seen qs).2) := by
  rw [processQs, if_neg h, hq]

theorem processQs_spec (svc : List Char → QueryResult) :
    ∀ (qs seen : List (List Char)), qs.Nodup →
      processQs svc seen qs
        = (qs.filter (fun q => decide (q ∉ seen)),
           seen ++ qs.filter (fun q => decide (q ∉ seen) && isOkB (svc q))) := by
  intro qs
  induction qs with
  | nil =>
    intro seen _
    rw [processQs]
    simp
  | cons q qs ih =>
    intro seen hnd
    have hnd' := List.nodup_cons.mp hnd
    rw [List.filter_cons, List.filter_cons]
    by_cases hm : q ∈ seen
    · have hflag : decide (q ∉ seen) = false := by simp [hm]
      rw [hflag, processQs_cons_seen svc hm, ih seen hnd'.2]
      simp
    · have hflag : decide (q ∉ seen) = true := by simp [hm]
      rw [hflag]
      cases hq : svc q with
      | ok a =>
        have hcongr : ∀ x ∈ qs, (decide (x ∉ seen ++ [q]) : Bool) = decide (x ∉ seen) := by
          intro x hx
          have hxq : x ≠ q := fun he => hnd'.1 (he ▸ hx)
          simp [List.mem_append, hxq]
        have hcongr2 : ∀ x ∈ qs,
            (decide (x ∉ seen ++ [q]) && isOkB (svc x))
              = (decide (x ∉ seen) && isOkB (svc x)) := by
          intro x hx
          rw [hcongr x hx]
        rw [processQs_cons_ok svc hm hq, ih (seen ++ [q]) hnd'.2,
          List.filter_congr hcongr, List.filter_congr hcongr2]
        simp [isOkB, List.append_assoc]
      | err m =>
        rw [processQs_cons_err svc hm hq, ih seen hnd'.2]
        simp [isOkB]

theorem extract_questions_nodup (text : List Char) :
    (extract_questions text).Nodup := dedupKeepFirst_nodup _

theorem main_cycle_spec (svc : List Char → QueryResult) (seen : List (List Char))
    (text : List Char) :
    main_cycle svc seen text
      = ((extract_questions text).filter (fun q => decide (q ∉ seen)),
         seen ++ (extract_questions text).filter
           (fun q => decide (q ∉ seen) && isOkB (svc q))) :=
  processQs_spec svc (extract_questions text) seen (extract_questions_nodup text)

/-! ## The region selector (select_region of screen_qna_gui.py and
screen_qna_snap.py) -/

/-- A rectangle in absolute screen pixels. -/
structure Rect where
  x1 : Int
  y1 : Int
  x2 : Int
  y2 : Int
deriving DecidableEq

/-- Pointer events seen by the selection overlay. -/
inductive Ev where
  | press (x y : Int)
  | drag (x y : Int)
  | release (x y : Int)
  | escape
deriving DecidableEq

/-- Runs the event handlers of select_region: on_press stores the first
corner, on_drag only redraws the live rectangle, on_release stores the
second corner and tears the overlay down, on_escape clears the stored state
and tears the overlay down.  Returns the stored corners when the loop ends. -/
def runSel : Option (Int × Int) → List Ev → Option (Int × Int) × Option (Int × Int)
  | p, [] => (p, none)
  | _, Ev.press x y :: rest => runSel (some (x, y)) rest
  | p, Ev.drag _ _ :: rest => runSel p rest
  | p, Ev.release x y :: _ => (p, some (x, y))
  | _, Ev.escape :: _ => (none, none)

/-- Embeds select_region: when both corners were recorded, the rectangle is
normalized with min and max per axis; otherwise no rectangle is produced. -/
def select_region (evs : List Ev) : Option Rect :=
  match runSel none evs with
  | (some (a, b), some (c, d)) => some ⟨min a c, min b d, max a c, max b d⟩
  | _ => none

/-! ## Characterization lemmas for the numeric-token match -/

theorem isEmpty_false_of_ne_nil {α : Type} {l : List α} (h : l ≠ []) :
    l.isEmpty = false := by
  cases l with
  | nil => exact absurd rfl h
  | cons a t => rfl

theorem takeWhile_eq_nil_of_head {p : Char → Bool} {rest : List Char}
    (h : ∀ c, rest.head? = some c → p c = false) : rest.takeWhile p = [] := by
  cases rest with
  | nil => rfl
  | cons r t => exact List.takeWhile_cons_of_neg (by simp [h r rfl])

theorem dropWhile_eq_self_of_head {p : Char → Bool} {rest : List Char}
    (h : ∀ c, rest.head? = some c → p c = false) : rest.dropWhile p = rest := by
  cases rest with
  | nil => rfl
  | cons r t => exact List.dropWhile_cons_of_neg (by simp [h r rfl])

theorem isReDigit_false_of_space {c : Char} (h : isPySpace c = true) :
    isReDigit c = false := by
  simp only [isPySpace, Bool.or_eq_true, Bool.and_eq_true, decide_eq_true_eq,
    beq_iff_eq] at h
  rw [Bool.eq_false_iff]
  intro hd
  simp only [isReDigit, ndDigitRanges, List.any_cons, List.any_nil, Bool.or_eq_true,
    Bool.and_eq_true, decide_eq_true_eq, Bool.false_eq_true, or_false] at hd
  omega

theorem space_not_percent {c : Char} (h : isPySpace c = true) :
    (c == '%' || c == '٪') = false := by
  rw [Bool.eq_false_iff]
  intro hp
  simp only [Bool.or_eq_true, beq_iff_eq] at hp
  rcases hp with rfl | rfl <;> exact absurd h (by decide)

theorem matchNum_eq_some_nopct {digits ws rest : List Char}
    (hd : digits ≠ []) (hdall : ∀ c ∈ digits, isReDigit c = true)
    (hw : ws ≠ []) (hwall : ∀ c ∈ ws, isPySpace c = true)
    (hrest : ∀ c, rest.head? = some c → isPySpace c = false) :
    matchNum (digits ++ (ws ++ rest))
      = some (digits, rest.takeWhile (fun x => x != '\n')) := by
  obtain ⟨w, ws', rfl⟩ : ∃ w ws', ws = w :: ws' := by
    cases ws with
    | nil => exact absurd rfl hw
    | cons w ws' => exact ⟨w, ws', rfl⟩
  have hwsp : isPySpace w = true := hwall w (List.mem_cons_self _ _)
  have hws' : ∀ x ∈ ws', isPySpace x = true :=
    fun x hx => hwall x (List.mem_cons_of_mem _ hx)
  have htD : (digits ++ ((w :: ws') ++ rest)).takeWhile isReDigit = digits := by
    rw [takeWhile_append_of_all hdall, List.cons_append,
      List.takeWhile_cons_of_neg (by simp [isReDigit_false_of_space hwsp]),
      List.append_nil]
  have hdD : (digits ++ ((w :: ws') ++ rest)).dropWhile isReDigit
      = w :: (ws' ++ rest) := by
    rw [dropWhile_append_of_all hdall, List.cons_append,
      List.dropWhile_cons_of_neg (by simp [isReDigit_false_of_space hwsp])]
  have hpcw : (w == '%' || w == '٪') = false := space_not_percent hwsp
  have htw2 : ((w :: (ws' ++ rest)).takeWhile isPySpace).isEmpty = false := by
    rw [List.takeWhile_cons_of_pos hwsp]
    rfl
  have hdw2 : (w :: (ws' ++ rest)).dropWhile isPySpace = rest := by
    rw [List.dropWhile_cons_of_pos hwsp, dropWhile_append_of_all hws',
      dropWhile_eq_self_of_head hrest]
  have hfd : digits.isEmpty = false := isEmpty_false_of_ne_nil hd
  simp only [matchNum, htD, hdD, hfd, Bool.false_eq_true, if_false, hpcw, htw2, hdw2]

theorem matchNum_eq_some_pct {digits ws rest : List Char} {pc : Char}
    (hpc : (pc == '%' || pc == '٪') = true) (hpcd : isReDigit pc = false)
    (hd : digits ≠ []) (hdall : ∀ c ∈ digits, isReDigit c = true)
    (hw : ws ≠ []) (hwall : ∀ c ∈ ws, isPySpace c = true)
    (hrest : ∀ c, rest.head? = some c → isPySpace c = false) :
    matchNum (digits ++ ([pc] ++ (ws ++ rest)))
      = some (digits ++ [pc], rest.takeWhile (fun x => x != '\n')) := by
  have htD : (digits ++ ([pc] ++ (ws ++ rest))).takeWhile isReDigit = digits := by
    rw [takeWhile_append_of_all hdall, List.singleton_append,
      List.takeWhile_cons_of_neg (by simp [hpcd]), List.append_nil]
  have hdD : (digits ++ ([pc] ++ (ws ++ rest))).dropWhile isReDigit
      = pc :: (ws ++ rest) := by
    rw [dropWhile_append_of_all hdall, List.singleton_append,
      List.dropWhile_cons_of_neg (by simp [hpcd])]
  have htwW : ((ws ++ rest).takeWhile isPySpace).isEmpty = false := by
    obtain ⟨w, ws', rfl⟩ : ∃ w ws', ws = w :: ws' := by
      cases ws with
      | nil => exact absurd rfl hw
      | cons w ws' => exact ⟨w, ws', rfl⟩
    rw [List.cons_append, List.takeWhile_cons_of_pos (hwall w (List.mem_cons_self _ _))]
    rfl
  have hdwW : (ws ++ rest).dropWhile isPySpace = rest := by
    rw [dropWhile_append_of_all hwall, dropWhile_eq_self_of_head hrest]
  have hfd : digits.isEmpty = false := isEmpty_false_of_ne_nil hd
  simp only [matchNum, htD, hdD, hfd, Bool.false_eq_true, if_false, hpc, if_true,
    htwW, hdwW]

theorem matchNum_eq_some {digits pct ws rest : List Char}
    (hd : digits ≠ []) (hdall : ∀ c ∈ digits, isReDigit c = true)
    (hp : pct = [] ∨ pct = ['%'] ∨ pct = ['٪'])
    (hw : ws ≠ []) (hwall : ∀ c ∈ ws, isPySpace c = true)
    (hrest : ∀ c, rest.head? = some c → isPySpace c = false) :
    matchNum (digits ++ (pct ++ (ws ++ rest)))
      = some (digits ++ pct, rest.takeWhile (fun x => x != '\n')) := by
  rcases hp with rfl | rfl | rfl
  · rw [List.nil_append, List.append_nil]
    exact matchNum_eq_some_nopct hd hdall hw hwall hrest
  · exact matchNum_eq_some_pct (by decide) (by decide) hd hdall hw hwall hrest
  · exact matchNum_eq_some_pct (by decide) (by decide) hd hdall hw hwall hrest

theorem matchNum_eq_none_of_head {answer : List Char}
    (h : ∀ c, answer.head? = some c → isReDigit c = false) :
    matchNum answer = none := by
  have ht : answer.takeWhile isReDigit = [] := takeWhile_eq_nil_of_head h
  simp [matchNum, ht]

theorem format_answer_eq_of_matchNum_some {text answer numPart ansMain : List Char}
    (h : matchNum answer = some (numPart, ansMain)) :
    format_answer text answer
      = pyStrip (numPart ++ (' ' ::
          ((if text.any isArabicBlock then arAnswerTag else enAnswerTag)
            ++ ansMain))) := by
  rw [format_answer, h]

theorem format_answer_eq_of_matchNum_none {text answer : List Char}
    (h : matchNum answer = none) :
    format_answer text answer
      = pyStrip (' ' ::
          ((if text.any isArabicBlock then arAnswerTag else enAnswerTag)
            ++ answer)) := by
  rw [format_answer, h]

/-! ## Remaining helper lemmas for the claims -/

theorem map_pyStrip_id {l : List (List Char)} (h : ∀ x ∈ l, pyStrip x = x) :
    l.map pyStrip = l := by
  induction l with
  | nil => rfl
  | cons a t ih =>
    rw [List.map_cons, h a (List.mem_cons_self a t),
      ih fun x hx => h x (List.mem_cons_of_mem a hx)]

theorem filter_eq_nil_of_all_false {α : Type} {p : α → Bool} {l : List α}
    (h : ∀ a ∈ l, p a = false) : l.filter p = [] := by
  induction l with
  | nil => rfl
  | cons a t ih =>
    rw [List.filter_cons, h a (List.mem_cons_self a t)]
    simp only [Bool.false_eq_true, if_false]
    exact ih fun x hx => h x (List.mem_cons_of_mem a hx)

theorem not_sent_of_seen {svc : List Char → QueryResult} {seen : List (List Char)}
    {text q : List Char} (h : q ∈ seen) :
    q ∉ (main_cycle svc seen text).1 := by
  rw [main_cycle_spec]
  intro hq
  have h2 := (List.mem_filter.mp hq).2
  simp only [decide_eq_true_eq] at h2
  exact h2 h

theorem select_region_some_shape {evs : List Ev} {r : Rect}
    (h : select_region evs = some r) :
    ∃ a b c d, r = ⟨min a c, min b d, max a c, max b d⟩ := by
  rw [select_region] at h
  rcases hrun : runSel none evs with ⟨p1, p2⟩
  rw [hrun] at h
  cases p1 with
  | none =>
    cases p2 with
    | none => simp at h
    | some pr2 =>
      obtain ⟨pc, pd⟩ := pr2
      simp at h
  | some pr1 =>
    obtain ⟨pa, pb⟩ := pr1
    cases p2 with
    | none => simp at h
    | some pr2 =>
      obtain ⟨pc, pd⟩ := pr2
      exact ⟨pa, pb, pc, pd, (Option.some.inj h).symm⟩

/-! ## The claims -/

/-- Claim C1, counterexample to the claim as stated: the text AbcdEfgh?
contains the single non-overlapping well-formed Latin question sentence
Efgh?, yet extract_questions does not return that sentence: the scan starts
a longer match at the earlier uppercase letter A. -/
theorem claim1_counterexample :
    "AbcdEfgh?".data = "Abcd".data ++ ("Efgh?".data ++ ([] : List Char))
      ∧ wellFormedQ "Efgh?".data = true
      ∧ extract_questions "AbcdEfgh?".data = ["AbcdEfgh?".data]
      ∧ ("Efgh?".data : List Char) ∉ extract_questions "AbcdEfgh?".data := by
  decide

/-- Claim C1 (amended): for every text assembled as alternating separators
and well-formed Latin question sentences, where no separator contains an
uppercase Latin letter, extract_questions returns exactly those sentences,
trimmed, in first-to-last order of appearance, each exactly once; later
verbatim duplicates are dropped and the first occurrence kept. -/
theorem claim1_extract_questions_decomposition
    (ps : List (List Char × List Char)) (t : List Char)
    (hps : ∀ p ∈ ps, noUpperLatin p.1 = true ∧ wellFormedQ p.2 = true)
    (ht : noUpperLatin t = true) :
    extract_questions (assemble ps t) = dedupKeepFirst (ps.map Prod.snd) := by
  rw [extract_questions, findall_assemble ps t hps ht, map_pyStrip_id]
  intro x hx
  obtain ⟨p, hp, rfl⟩ := List.mem_map.mp hx
  exact pyStrip_wellFormedQ (hps p hp).2

/-- Witness for claim C1 at a concrete decomposition with a duplicate. -/
theorem claim1_witness :
    extract_questions (assemble [("x ".data, "What is love?".data),
        (" and ".data, "What is love?".data), (" so ".data, "Why not me?".data)]
      " end".data)
      = ["What is love?".data, "Why not me?".data] := by
  rw [claim1_extract_questions_decomposition _ _ (by decide) (by decide)]
  decide

/-- Claim C3, counterexample to the claim as stated: the snap interactive
single-shot flow sends the whole trimmed OCR text to the answer service, not
the fallback-chain extraction of it. -/
theorem claim3_counterexample :
    snap_main_question "ab؟cd".data = some "ab؟cd".data
      ∧ extract_question "ab؟cd".data = "ab؟".data
      ∧ snap_main_question "ab؟cd".data ≠ some (extract_question "ab؟cd".data) := by
  decide

/-- Claim C3 (amended): the GUI single-shot flow sends exactly the
fallback-chain extraction of the OCR text; the snap single-shot flow sends
the entire trimmed OCR text verbatim whenever it is non-empty; and the
continuous mode sends only strings produced by the Latin multi-match
extractor. -/
theorem claim3_policy_selection (svcG : List Char → List Char)
    (svc : List Char → QueryResult) (text raw ocr : List Char)
    (seen : List (List Char)) :
    (run_ocr_and_answer svcG text).1 = extract_question text
      ∧ (pyStrip raw ≠ [] → snap_main_question raw = some (pyStrip raw))
      ∧ (∀ q ∈ (main_cycle svc seen ocr).1, q ∈ extract_questions ocr) := by
  refine ⟨rfl, ?_, ?_⟩
  · intro h
    rw [snap_main_question, isEmpty_false_of_ne_nil h]
    simp
  · intro q hq
    rw [main_cycle_spec] at hq
    exact List.mem_of_mem_filter hq

/-- Witness for claim C3 at concrete inputs. -/
theorem claim3_witness :
    (run_ocr_and_answer (fun _ => "Paris".data) "Where is X?".data).1
        = extract_question "Where is X?".data
      ∧ snap_main_question " hi ".data = some (pyStrip " hi ".data) := by
  have h := claim3_policy_selection (fun _ => "Paris".data)
    (fun _ => QueryResult.ok []) "Where is X?".data " hi ".data [] []
  exact ⟨h.1, h.2.1 (by decide)⟩

/-- Claim C4, counterexample to the claim as stated: with a numeric token
present, the body is not the whole remainder of the answer; the dot of the
pattern stops at the first newline, so text from the newline on is dropped. -/
theorem claim4_counterexample :
    format_answer "x".data "7 a\nb".data = "7 Answer: a".data
      ∧ format_answer "x".data "7 a\nb".data
          ≠ "7".data ++ (' ' :: (enAnswerTag ++ "a\nb".data)) := by
  decide

/-- Claim C4 (amended): the tag is the Arabic one exactly when the source
text contains a character of the Arabic Unicode block, independent of the
answer; an answer beginning with a numeric token (digits, an optional
percent sign of either script) followed by whitespace is rendered as the
token, a space, the tag and the remainder of the first line after the
whitespace run, whitespace-trimmed at both ends; an answer that does not
begin with a digit is rendered as the tag followed by the whole answer,
whitespace-trimmed at both ends. -/
theorem claim4_format_answer (text answer : List Char) :
    (∀ digits pct ws rest,
        answer = digits ++ (pct ++ (ws ++ rest)) →
        digits ≠ [] → (∀ c ∈ digits, isReDigit c = true) →
        (pct = [] ∨ pct = ['%'] ∨ pct = ['٪']) →
        ws ≠ [] → (∀ c ∈ ws, isPySpace c = true) →
        (∀ c, rest.head? = some c → isPySpace c = false) →
        format_answer text answer
          = pyStrip ((digits ++ pct) ++ (' ' ::
              ((if text.any isArabicBlock then arAnswerTag else enAnswerTag)
                ++ rest.takeWhile (fun x => x != '\n')))))
      ∧ ((∀ c, answer.head? = some c → isReDigit c = false) →
          format_answer text answer
            = pyStrip (' ' ::
                ((if text.any isArabicBlock then arAnswerTag else enAnswerTag)
                  ++ answer))) := by
  constructor
  · intro digits pct ws rest hsplit hd hdall hp hw hwall hrest
    subst hsplit
    exact format_answer_eq_of_matchNum_some
      (matchNum_eq_some hd hdall hp hw hwall hrest)
  · intro hhead
    exact format_answer_eq_of_matchNum_none (matchNum_eq_none_of_head hhead)

/-- Witness for claim C4 at concrete inputs of both shapes. -/
theorem claim4_witness :
    format_answer "سؤال".data "42% نعم".data = "42% الإجابة: نعم".data
      ∧ format_answer "abc".data "hello".data = "Answer: hello".data := by
  constructor
  · exact ((claim4_format_answer "سؤال".data "42% نعم".data).1
      "42".data ['%'] [' '] "نعم".data (by decide) (by decide) (by decide)
      (by decide) (by decide) (by decide) (by decide)).trans (by decide)
  · exact ((claim4_format_answer "abc".data "hello".data).2 (by decide)).trans
      (by decide)

/-- Claim C5, counterexample to the claim as stated: with the credential
absent, the configuration failure does not abort the continuous loop; the
cycle still attempts every detected question and continues. -/
theorem claim5_counterexample :
    (main_cycle (query_openai none (fun _ => QueryResult.ok []))
        [] "Where is A? Where is B?".data).1
      = ["Where is A?".data, "Where is B?".data]
      ∧ (main_cycle (query_openai none (fun _ => QueryResult.ok []))
        [] "Where is A? Where is B?".data).2 = [] := by
  decide

/-- Claim C5 (amended): with the credential absent the answer call fails
immediately with the configuration message, independently of the network
oracle, so no network attempt is made; but in the continuous loop this
failure is caught per question like any other query failure: every unseen
candidate is still attempted, none is added to the seen set, and the loop
proceeds rather than aborting. -/
theorem claim5_missing_key (net net2 : List Char → QueryResult)
    (q text : List Char) (seen : List (List Char)) :
    query_openai none net q = QueryResult.err cfgErrMsg
      ∧ query_openai none net q = query_openai none net2 q
      ∧ (main_cycle (query_openai none net) seen text).2 = seen
      ∧ (∀ q2 ∈ extract_questions text, q2 ∉ seen →
          q2 ∈ (main_cycle (query_openai none net) seen text).1) := by
  refine ⟨rfl, rfl, ?_, ?_⟩
  · have hnil : (extract_questions text).filter
        (fun q2 => decide (q2 ∉ seen) && isOkB (query_openai none net q2)) = [] :=
      filter_eq_nil_of_all_false (fun x _ => by simp [query_openai, isOkB])
    rw [main_cycle_spec, hnil]
    simp
  · intro q2 h1 h2
    rw [main_cycle_spec]
    exact List.mem_filter.mpr ⟨h1, by simp [h2]⟩

/-- Witness for claim C5 at a concrete cycle. -/
theorem claim5_witness :
    ("Where is A?".data : List Char)
      ∈ (main_cycle (query_openai none (fun _ => QueryResult.ok []))
          [] "Where is A?".data).1 :=
  (claim5_missing_key (fun _ => QueryResult.ok []) (fun _ => QueryResult.ok [])
    [] "Where is A?".data []).2.2.2 "Where is A?".data (by decide) (by decide)

/-- Claim C6: in the continuous loop a question enters the seen set only
when it was already there or its query succeeded; a failing question is
still attempted and reported but not recorded, so it stays eligible for the
next cycle, and the loop continues past it; a question already in the seen
set is not re-sent; and a question whose query succeeded in one cycle is not
re-sent in any later cycle. -/
theorem claim6_seen_set (svc : List Char → QueryResult) (seen : List (List Char))
    (text text2 q : List Char) :
    (q ∈ (main_cycle svc seen text).2 → q ∈ seen ∨ ∃ a, svc q = QueryResult.ok a)
      ∧ (∀ m, q ∈ extract_questions text → q ∉ seen → svc q = QueryResult.err m →
          q ∈ (main_cycle svc seen text).1 ∧ q ∉ (main_cycle svc seen text).2)
      ∧ (∀ q2 ∈ extract_questions text, q2 ∉ seen → q2 ∈ (main_cycle svc seen text).1)
      ∧ (q ∈ seen → q ∉ (main_cycle svc seen text).1)
      ∧ (∀ a, q ∈ extract_questions text → svc q = QueryResult.ok a →
          q ∉ (main_cycle svc (main_cycle svc seen text).2 text2).1) := by
  refine ⟨?_, ?_, ?_, ?_, ?_⟩
  · intro hmem
    rw [main_cycle_spec] at hmem
    rcases List.mem_append.mp hmem with hs | hf
    · exact Or.inl hs
    · right
      have h2 := (List.mem_filter.mp hf).2
      have hok : isOkB (svc q) = true := (Bool.and_eq_true_iff.mp h2).2
      cases hsv : svc q with
      | ok a => exact ⟨a, rfl⟩
      | err m =>
        rw [hsv] at hok
        simp [isOkB] at hok
  · intro m h1 h2 h3
    constructor
    · rw [main_cycle_spec]
      exact List.mem_filter.mpr ⟨h1, by simp [h2]⟩
    · intro hmem
      rw [main_cycle_spec] at hmem
      rcases List.mem_append.mp hmem with hs | hf
      · exact h2 hs
      · have hcond := (List.mem_filter.mp hf).2
        rw [h3] at hcond
        simp [isOkB] at hcond
  · intro q2 h1 h2
    rw [main_cycle_spec]
    exact List.mem_filter.mpr ⟨h1, by simp [h2]⟩
  · intro hs
    exact not_sent_of_seen hs
  · intro a hq hok
    apply not_sent_of_seen
    rw [main_cycle_spec]
    by_cases hs : q ∈ seen
    · exact List.mem_append.mpr (Or.inl hs)
    · exact List.mem_append.mpr
        (Or.inr (List.mem_filter.mpr ⟨hq, by simp [hs, hok, isOkB]⟩))

/-- Witness for claim C6: a failing question is sent but not recorded. -/
theorem claim6_witness :
    ("What is love?".data : List Char)
        ∈ (main_cycle (fun _ => QueryResult.err "boom".data)
            [] "What is love?".data).1
      ∧ ("What is love?".data : List Char)
        ∉ (main_cycle (fun _ => QueryResult.err "boom".data)
            [] "What is love?".data).2 :=
  (claim6_seen_set (fun _ => QueryResult.err "boom".data) [] "What is love?".data
    [] "What is love?".data).2.1 "boom".data (by decide) (by decide) rfl

/-- Claim C7: the fallback-chain extractor returns, trimmed, the first run
of two or more characters not containing the Arabic question mark followed
by that mark when one exists; otherwise the first such Latin-style match;
otherwise the entire trimmed text; the chain is tried in exactly that
order. -/
theorem claim7_fallback_chain (txt : List Char) :
    extract_question txt =
      match specFirstRun '؟' txt with
      | some m => pyStrip m
      | none =>
        match specFirstRun '?' txt with
        | some m => pyStrip m
        | none => pyStrip txt := by
  rw [extract_question, searchQm_eq_specFirstRun, searchQm_eq_specFirstRun]

/-- Claim C8: every rectangle the region selector emits is normalized, with
x1 at most x2 and y1 at most y2 whatever the drag direction; a drag pressed
at one corner and released at the other yields the min/max-normalized
rectangle, so pressing at coordinates one hundred and releasing at ten
yields the rectangle from ten to one hundred on both axes. -/
theorem claim8_select_region (evs drags : List Ev) (a b c d : Int)
    (hd : ∀ e ∈ drags, ∃ x y, e = Ev.drag x y) :
    (∀ r, select_region evs = some r → r.x1 ≤ r.x2 ∧ r.y1 ≤ r.y2)
      ∧ select_region (Ev.press a b :: (drags ++ [Ev.release c d]))
          = some ⟨min a c, min b d, max a c, max b d⟩ := by
  constructor
  · intro r hr
    obtain ⟨a2, b2, c2, d2, rfl⟩ := select_region_some_shape hr
    exact ⟨min_le_max, min_le_max⟩
  · have hstep : ∀ (p : Option (Int × Int)) (ds : List Ev),
        (∀ e ∈ ds, ∃ x y, e = Ev.drag x y) →
        runSel p (ds ++ [Ev.release c d]) = (p, some (c, d)) := by
      intro p ds
      induction ds generalizing p with
      | nil =>
        intro _
        rw [List.nil_append, runSel]
      | cons e t ih =>
        intro hds
        obtain ⟨x, y, rfl⟩ := hds e (List.mem_cons_self _ _)
        rw [List.cons_append, runSel]
        exact ih p fun e2 he => hds e2 (List.mem_cons_of_mem _ he)
    rw [select_region, runSel, hstep (some (a, b)) drags hd]

/-- Witness for claim C8 at the drag of the spec's example, pressed at one
hundred twice and released at ten twice. -/
theorem claim8_witness :
    select_region [Ev.press 100 100, Ev.release 10 10]
      = some ⟨10, 10, 100, 100⟩ :=
  ((claim8_select_region [] [] 100 100 10 10 (by intro e he; cases he)).2).trans
    (by decide)

/-- Claim C9: a text containing neither the Latin nor the Arabic question
mark yields the empty sequence from the Latin multi-match extractor. -/
theorem claim9_no_terminator (txt : List Char)
    (h1 : ('?' : Char) ∉ txt) (_h2 : ('؟' : Char) ∉ txt) :
    extract_questions txt = [] := by
  rw [extract_questions, findall_eq_nil_of_no_qmark h1]
  rfl

/-- Witness for claim C9 at a concrete input. -/
theorem claim9_witness : extract_questions "Hello world".data = [] :=
  claim9_no_terminator "Hello world".data (by decide) (by decide)

/-- Claim C10: every string returned by the Latin multi-match extractor
begins with an uppercase ASCII Latin letter, ends with the Latin question
mark, contains no other Latin question mark, and has length at least five
(at least four characters before the terminator would be length three in the
middle plus the leading letter); in particular no four-character candidate
is ever returned. -/
theorem claim10_output_invariant (txt q : List Char)
    (h : q ∈ extract_questions txt) :
    (∃ c mid, q = c :: (mid ++ ['?']) ∧ isUpperLatin c = true ∧ 3 ≤ mid.length
      ∧ ∀ x ∈ mid, x ≠ '?') ∧ 5 ≤ q.length := by
  rw [extract_questions] at h
  have h2 := mem_of_mem_dedupKeepFirst h
  obtain ⟨m, hm, rfl⟩ := List.mem_map.mp h2
  have hwf := findall_mem_wellFormed hm
  rw [pyStrip_wellFormedQ hwf]
  refine ⟨wellFormedQ_dest hwf, ?_⟩
  obtain ⟨c, mid, rfl, _, hlen, _⟩ := wellFormedQ_dest hwf
  simp only [List.length_cons, List.length_append, List.length_singleton]
  omega

/-- Witness for claim C10 at a concrete extraction. -/
theorem claim10_witness :
    5 ≤ ("What is going on?".data : List Char).length :=
  (claim10_output_invariant "What is going on?".data "What is going on?".data
    (by decide)).2
